import Mathlib

/-!
Verification of the formula composing and parsing core of the `glmax`
repository (`glmax/utils/formulas.py`).  Python strings are embedded as
`List Char`; `str.split`, `str.strip` and `str.join` are embedded as the
executable functions `split`, `strip` and `joinSep` below, and the two
operations `create_formula` and `parse_formula` are translated line by
line from the source.  The partial applications of `functools.reduce`
without an initial value are embedded by `reduce1`, which is `none` on an
empty list (Python raises `TypeError` there); `np.unique` is embedded by
`npUnique` (sorted deduplication); the iteration over the Python set of
frozensets is embedded deterministically in first-occurrence order, which
is sound for all the set-level statements proved here.
-/

namespace Glmax

abbrev Str := List Char

/-- Whitespace test used by Python `str.strip()`: the code points the
CPython unicode database marks as whitespace (0x09 to 0x0d, 0x1c to
0x1f, space, 0x85, 0xa0, 0x1680, 0x2000 to 0x200a, 0x2028, 0x2029,
0x202f, 0x205f, 0x3000). -/
def isSpace (c : Char) : Bool :=
  decide ((0x09 ≤ c.toNat ∧ c.toNat ≤ 0x0d) ∨
    (0x1c ≤ c.toNat ∧ c.toNat ≤ 0x1f) ∨
    c.toNat = 0x20 ∨ c.toNat = 0x85 ∨ c.toNat = 0xa0 ∨ c.toNat = 0x1680 ∨
    (0x2000 ≤ c.toNat ∧ c.toNat ≤ 0x200a) ∨
    c.toNat = 0x2028 ∨ c.toNat = 0x2029 ∨ c.toNat = 0x202f ∨
    c.toNat = 0x205f ∨ c.toNat = 0x3000)

/-- Embedding of Python `s.split(c)` for a one-character separator:
splits at every occurrence of `c`, keeping empty chunks. -/
def split (c : Char) : Str → List Str
  | [] => [[]]
  | a :: rest =>
    if a = c then [] :: split c rest
    else
      match split c rest with
      | [] => [[a]]
      | r :: rs => (a :: r) :: rs

/-- Embedding of Python `s.strip()`: drop whitespace from both ends. -/
def strip (s : Str) : Str :=
  ((s.dropWhile isSpace).reverse.dropWhile isSpace).reverse

/-- Embedding of Python `sep.join(xs)`. -/
def joinSep (sep : Str) : List Str → Str
  | [] => []
  | [x] => x
  | x :: y :: rest => x ++ sep ++ joinSep sep (y :: rest)

/-- Embedding of `functools.reduce(f, l)` with no initial value:
`none` on the empty list, where Python raises `TypeError`. -/
def reduce1 {α : Type} (f : α → α → α) : List α → Option α
  | [] => none
  | x :: xs => some (xs.foldl f x)

/-- Embedding of `itertools.combinations(x, 2)`: all pairs `[xᵢ, xⱼ]`
with `i < j`, in the order `itertools` produces them. -/
def combinations2 {α : Type} : List α → List (List α)
  | [] => []
  | x :: xs => xs.map (fun y => [x, y]) ++ combinations2 xs

/-- Deduplication keeping the first occurrence; embeds the passage of a
Python list through a set, iterated in first-occurrence order. -/
def dedupFirst (l : List Str) : List Str :=
  l.foldl (fun acc x => if x ∈ acc then acc else acc ++ [x]) []

/-- Two token lists are equal as sets (the `frozenset` identity). -/
def setEqStr (a b : List Str) : Bool :=
  a.all (fun x => b.contains x) && b.all (fun x => a.contains x)

/-- Deduplication of interaction terms by `frozenset` identity, keeping
the first occurrence; embeds `{frozenset(p) for p in ixs_lists}`. -/
def dedupBySet (l : List (List Str)) : List (List Str) :=
  l.foldl (fun acc x => if acc.any (fun y => setEqStr y x) then acc else acc ++ [x]) []

/-- Lexicographic (code-point) order on embedded strings, as used by
`np.unique` when it sorts an array of Python strings. -/
def strLt : Str → Str → Bool
  | [], [] => false
  | [], _ :: _ => true
  | _ :: _, [] => false
  | a :: as, b :: bs => if a < b then true else if b < a then false else strLt as bs

/-- Sorted insertion skipping duplicates, the building block of
`npUnique`. -/
def insertUniq (x : Str) : List Str → List Str
  | [] => [x]
  | y :: ys => if x = y then y :: ys else if strLt x y then x :: y :: ys else y :: insertUniq x ys

/-- Embedding of `np.unique` on a flat list of strings: the sorted list
of distinct elements. -/
def npUnique (l : List Str) : List Str :=
  l.foldr insertUniq []

/-- Error taxonomy of `parse_formula`: the two `ValueError`s raised by
the source, and the `TypeError` raised by `functools.reduce` when it is
given an empty sequence and no initial value. -/
inductive PErr where
  | formatSeparator : PErr
  | formatMixed : PErr
  | emptyReduce : PErr
deriving DecidableEq

/-- The FormatKind errors of the specification taxonomy: malformed
formula (wrong separator count, mixed interaction delimiters). -/
def PErr.isFormat : PErr → Bool
  | .formatSeparator => true
  | .formatMixed => true
  | .emptyReduce => false

/-- The dictionary returned by `parse_formula` (`y`, `x`, `ixs`),
together with the list of variable names printed by the
`warnings.warn` call (`missing = []` means no warning was emitted). -/
structure ParseOut where
  y : Str
  x : List Str
  ixs : Option (List (List Str))
  missing : List Str
deriving DecidableEq

/-- Result of a `parse_formula` call: a returned dictionary or a raised
exception. -/
inductive PResult where
  | ok : ParseOut → PResult
  | err : PErr → PResult
deriving DecidableEq

/-- Embedding of `create_formula` (list-normalised arguments): the
Python source first turns a bare string argument into a one-element
list, so the embedding takes the normalised lists directly. -/
def create_formula (outcome : Str) (predictors : List Str)
    (interactions : Option (List Str)) : Str :=
  let form := outcome ++ " ~ ".data ++ joinSep " + ".data predictors
  match interactions with
  | none => form
  | some ixs => form ++ " + ".data ++ joinSep " + ".data ixs

/-- Embedding of the per-term re-join
`str(":" if ":" in p else "*").join([i.strip() for i in p.split(...)])`. -/
def rejoinTerm (p : Str) : Str :=
  let d : Char := if p.contains ':' then ':' else '*'
  joinSep [d] ((split d p).map strip)

/-- Embedding of the Python local `ixs` after its per-term re-join:
the raw terms containing a delimiter, whitespace-normalised. -/
def mkIxs1 (predictors : List Str) : List Str :=
  (predictors.filter (fun p => p.contains ':' || p.contains '*')).map rejoinTerm

/-- Embedding of the Python local `ix_star`. -/
def ixStar (ixs1 : List Str) : List (List Str) :=
  (ixs1.filter (fun p => p.contains '*')).map (fun p => (split '*' p).map strip)

/-- Embedding of the Python local `ix_col`. -/
def ixCol (ixs1 : List Str) : List (List Str) :=
  (ixs1.filter (fun p => p.contains ':')).map (fun p => (split ':' p).map strip)

/-- Embedding of the tail of the interaction branch: the second
`functools.reduce`, `np.unique`, the computation of `missing_preds`
(the names emitted by `warnings.warn`), and the returned dictionary. -/
def finishIx (outcome : Str) (preds : List Str) (ixs_lists : List (List Str)) : PResult :=
  match reduce1 (· ++ ·) ixs_lists with
  | none => .err .emptyReduce
  | some allvars =>
    .ok ⟨outcome,
         preds ++ (npUnique allvars).filter (fun v => !(preds.contains v)),
         some ixs_lists,
         (npUnique allvars).filter (fun v => !(preds.contains v))⟩

/-- Embedding of the interaction branch of `parse_formula` (the body of
`if "*" in formula or ":" in formula`); the Python locals `ixs1`,
`ix_star`, `ix_col`, `ixs_lists` are inlined at their use sites. -/
def parseIx (outcome : Str) (preds : List Str) (predictors : List Str) : PResult :=
  if (mkIxs1 predictors).any (fun p => p.contains ':' && p.contains '*') then
    .err .formatMixed
  else
    match reduce1 (· ++ ·) ((ixStar (mkIxs1 predictors)).map combinations2) with
    | none => .err .emptyReduce
    | some ix_star_reform =>
      finishIx outcome preds
        (dedupBySet ((ixCol (mkIxs1 predictors) ++ ix_star_reform).map dedupFirst))

/-- Embedding of the Python local `preds`: the plain raw terms,
whitespace-trimmed, with no deduplication. -/
def plainPreds (predictors : List Str) : List Str :=
  (predictors.filter (fun p => !(p.contains ':') && !(p.contains '*'))).map strip

/-- Embedding of `parse_formula`. -/
def parse_formula (formula : Str) : PResult :=
  match split '~' formula with
  | [l, r] =>
    if formula.contains '*' || formula.contains ':' then
      parseIx (strip l) (plainPreds (split '+' (strip r))) (split '+' (strip r))
    else .ok ⟨strip l, plainPreds (split '+' (strip r)), none, []⟩
  | _ => .err .formatSeparator

/-- The output format asserted by the specification of `create_formula`:
outcome, separator, then predictors and interactions joined with
`" + "` as one sequence.  Stated from the wording of the claim, to be
compared with the source embedding `create_formula`. -/
def composeJoinedForm (outcome : Str) (predictors interactions : List Str) : Str :=
  outcome ++ " ~ ".data ++ joinSep " + ".data (predictors ++ interactions)

/-- A well-formed variable token of the formula grammar: nonempty and
free of the separator, delimiter and whitespace characters. -/
def cleanToken (t : Str) : Prop :=
  t ≠ [] ∧ ∀ c ∈ t, c ≠ '~' ∧ c ≠ '+' ∧ c ≠ ':' ∧ c ≠ '*' ∧ isSpace c = false

instance cleanTokenDecidable (t : Str) : Decidable (cleanToken t) :=
  inferInstanceAs (Decidable (t ≠ [] ∧ ∀ c ∈ t,
    c ≠ '~' ∧ c ≠ '+' ∧ c ≠ ':' ∧ c ≠ '*' ∧ isSpace c = false))

theorem split_ne_nil (c : Char) (s : Str) : split c s ≠ [] := by
  induction s with
  | nil => simp [split]
  | cons a rest ih =>
    simp only [split]
    by_cases h : a = c
    · simp [h]
    · simp only [if_neg h]
      cases hs : split c rest with
      | nil => simp
      | cons r rs => simp

theorem length_split (c : Char) (s : Str) :
    (split c s).length = s.count c + 1 := by
  induction s with
  | nil => simp [split]
  | cons a rest ih =>
    simp only [split]
    by_cases h : a = c
    · subst h
      simp [List.count_cons, ih]
    · cases hs : split c rest with
      | nil => exact absurd hs (split_ne_nil c rest)
      | cons r rs =>
        rw [hs] at ih
        simp only [if_neg h]
        simp [List.count_cons, Ne.symm h, ← ih]

theorem split_not_mem {c : Char} {s : Str} (h : c ∉ s) : split c s = [s] := by
  induction s with
  | nil => rfl
  | cons a rest ih =>
    have ha : a ≠ c := fun he => h (he ▸ List.mem_cons_self a rest)
    have hr : c ∉ rest := fun hm => h (List.mem_cons_of_mem a hm)
    simp only [split, if_neg ha, ih hr]

theorem split_append_cons {c : Char} {a : Str} (b : Str) (h : c ∉ a) :
    split c (a ++ c :: b) = a :: split c b := by
  induction a with
  | nil => simp [split]
  | cons x xs ih =>
    have hx : x ≠ c := fun he => h (he ▸ List.mem_cons_self x xs)
    have hxs : c ∉ xs := fun hm => h (List.mem_cons_of_mem x hm)
    simp only [List.cons_append, split, if_neg hx, List.append_eq, ih hxs]

theorem mem_of_mem_split {c : Char} {s : Str} :
    ∀ {t : Str}, t ∈ split c s → ∀ {x : Char}, x ∈ t → x ∈ s := by
  induction s with
  | nil =>
    intro t ht x hx
    simp [split] at ht
    subst ht
    exact absurd hx (List.not_mem_nil x)
  | cons a rest ih =>
    intro t ht x hx
    by_cases h : a = c
    · simp only [split, if_pos h] at ht
      rcases List.mem_cons.mp ht with he | hm
      · subst he; exact absurd hx (List.not_mem_nil x)
      · exact List.mem_cons_of_mem a (ih hm hx)
    · simp only [split, if_neg h] at ht
      cases hs : split c rest with
      | nil => exact absurd hs (split_ne_nil c rest)
      | cons r rs =>
        rw [hs] at ht
        rcases List.mem_cons.mp ht with he | hm
        · subst he
          rcases List.mem_cons.mp hx with hxa | hxr
          · exact hxa ▸ List.mem_cons_self a rest
          · exact List.mem_cons_of_mem a (ih (hs ▸ List.mem_cons_self r rs) hxr)
        · exact List.mem_cons_of_mem a (ih (hs ▸ List.mem_cons_of_mem r hm) hx)

theorem mem_split_of_mem {c x : Char} {s : Str} (hx : x ∈ s) (hne : x ≠ c) :
    ∃ t ∈ split c s, x ∈ t := by
  induction s with
  | nil => exact absurd hx (List.not_mem_nil x)
  | cons a rest ih =>
    by_cases h : a = c
    · have hxr : x ∈ rest := by
        rcases List.mem_cons.mp hx with he | hm
        · exact absurd (he.trans h) hne
        · exact hm
      obtain ⟨t, ht, hxt⟩ := ih hxr
      exact ⟨t, by simp only [split, if_pos h]; exact List.mem_cons_of_mem _ ht, hxt⟩
    · cases hs : split c rest with
      | nil => exact absurd hs (split_ne_nil c rest)
      | cons r rs =>
        rcases List.mem_cons.mp hx with he | hm
        · refine ⟨a :: r, ?_, he ▸ List.mem_cons_self a r⟩
          simp only [split, if_neg h, hs]
          exact List.mem_cons_self _ _
        · obtain ⟨t, ht, hxt⟩ := ih hm
          rw [hs] at ht
          rcases List.mem_cons.mp ht with he2 | hm2
          · refine ⟨a :: r, ?_, he2 ▸ List.mem_cons_of_mem a hxt⟩
            simp only [split, if_neg h, hs]
            exact List.mem_cons_self _ _
          · refine ⟨t, ?_, hxt⟩
            simp only [split, if_neg h, hs]
            exact List.mem_cons_of_mem _ hm2

theorem dropWhile_eq_self_of_forall {p : Char → Bool} {l : Str}
    (h : ∀ x ∈ l, p x = false) : l.dropWhile p = l := by
  cases l with
  | nil => rfl
  | cons a t =>
    rw [List.dropWhile_cons, if_neg (by simp [h a (List.mem_cons_self a t)])]

theorem mem_of_mem_dropWhile {p : Char → Bool} {l : Str} {x : Char}
    (h : x ∈ l.dropWhile p) : x ∈ l := by
  induction l with
  | nil => exact h
  | cons a t ih =>
    rw [List.dropWhile_cons] at h
    by_cases hp : p a = true
    · rw [if_pos hp] at h
      exact List.mem_cons_of_mem a (ih h)
    · rw [if_neg hp] at h
      exact h

theorem mem_dropWhile_of_false {p : Char → Bool} {l : Str} {x : Char}
    (hx : x ∈ l) (hp : p x = false) : x ∈ l.dropWhile p := by
  induction l with
  | nil => exact absurd hx (List.not_mem_nil x)
  | cons a t ih =>
    by_cases ha : p a = true
    · rw [List.dropWhile_cons, if_pos ha]
      rcases List.mem_cons.mp hx with he | hm
      · subst he
        rw [hp] at ha
        exact Bool.noConfusion ha
      · exact ih hm
    · rw [List.dropWhile_cons, if_neg ha]
      exact hx

theorem mem_of_mem_strip {s : Str} {x : Char} (h : x ∈ strip s) : x ∈ s := by
  unfold strip at h
  rw [List.mem_reverse] at h
  have h2 := mem_of_mem_dropWhile h
  rw [List.mem_reverse] at h2
  exact mem_of_mem_dropWhile h2

theorem mem_strip_of_not_space {s : Str} {x : Char} (hx : x ∈ s)
    (hp : isSpace x = false) : x ∈ strip s := by
  unfold strip
  rw [List.mem_reverse]
  refine mem_dropWhile_of_false ?_ hp
  rw [List.mem_reverse]
  exact mem_dropWhile_of_false hx hp

theorem strip_cons_space {a : Char} {s : Str} (h : isSpace a = true) :
    strip (a :: s) = strip s := by
  unfold strip
  rw [List.dropWhile_cons, if_pos h]

theorem dropWhile_append_singleton (p : Char → Bool) (s : Str) (b : Char) :
    (s ++ [b]).dropWhile p =
      if s.dropWhile p = [] then [b].dropWhile p else s.dropWhile p ++ [b] := by
  induction s with
  | nil => simp
  | cons x xs ih =>
    by_cases hx : p x = true
    · have hl : (x :: (xs ++ [b])).dropWhile p = (xs ++ [b]).dropWhile p := by
        rw [List.dropWhile_cons, if_pos hx]
      have hr : (x :: xs).dropWhile p = xs.dropWhile p := by
        rw [List.dropWhile_cons, if_pos hx]
      rw [List.cons_append, hl, hr]
      exact ih
    · have hl : (x :: (xs ++ [b])).dropWhile p = x :: (xs ++ [b]) := by
        rw [List.dropWhile_cons, if_neg hx]
      have hr : (x :: xs).dropWhile p = x :: xs := by
        rw [List.dropWhile_cons, if_neg hx]
      rw [List.cons_append, hl, hr]
      simp

theorem strip_append_space {a : Char} {s : Str} (h : isSpace a = true) :
    strip (s ++ [a]) = strip s := by
  unfold strip
  rw [dropWhile_append_singleton]
  by_cases he : s.dropWhile isSpace = []
  · simp [he, List.dropWhile_cons, h]
  · rw [if_neg he, List.reverse_append]
    simp only [List.reverse_cons, List.reverse_nil, List.nil_append,
      List.singleton_append]
    rw [List.dropWhile_cons, if_pos h]

theorem strip_eq_self_of_forall {s : Str} (h : ∀ x ∈ s, isSpace x = false) :
    strip s = s := by
  unfold strip
  rw [dropWhile_eq_self_of_forall h,
    dropWhile_eq_self_of_forall (fun x hx => h x (List.mem_reverse.mp hx)),
    List.reverse_reverse]

theorem strip_eq_self_of_head_last {s : Str}
    (h1 : isSpace s.headI = false) (h2 : isSpace s.reverse.headI = false) :
    strip s = s := by
  unfold strip
  have d1 : s.dropWhile isSpace = s := by
    cases s with
    | nil => rfl
    | cons a t =>
      rw [List.dropWhile_cons, if_neg (by simp only [List.headI_cons] at h1; simp [h1])]
  rw [d1]
  have d2 : s.reverse.dropWhile isSpace = s.reverse := by
    cases hr : s.reverse with
    | nil => rfl
    | cons b w =>
      rw [hr] at h2
      rw [List.dropWhile_cons, if_neg (by simp only [List.headI_cons] at h2; simp [h2])]
  rw [d2, List.reverse_reverse]

theorem contains_iff_mem {α : Type} [BEq α] [LawfulBEq α] {s : List α} {c : α} :
    s.contains c = true ↔ c ∈ s :=
  List.elem_iff

theorem mem_joinSep {sep : Str} {xs : List Str} {x : Char}
    (h : x ∈ joinSep sep xs) : x ∈ sep ∨ ∃ t ∈ xs, x ∈ t := by
  induction xs with
  | nil => exact absurd h (List.not_mem_nil x)
  | cons p rest ih =>
    cases rest with
    | nil =>
      simp only [joinSep] at h
      exact Or.inr ⟨p, List.mem_cons_self p [], h⟩
    | cons q rest2 =>
      simp only [joinSep] at h
      rcases List.mem_append.mp h with h1 | h2
      · rcases List.mem_append.mp h1 with hp | hs
        · exact Or.inr ⟨p, List.mem_cons_self _ _, hp⟩
        · exact Or.inl hs
      · rcases ih h2 with hs | ⟨t, ht, hx⟩
        · exact Or.inl hs
        · exact Or.inr ⟨t, List.mem_cons_of_mem p ht, hx⟩

theorem mem_joinSep_of_mem {sep : Str} {xs : List Str} {t : Str}
    (ht : t ∈ xs) {x : Char} (hx : x ∈ t) : x ∈ joinSep sep xs := by
  induction xs with
  | nil => exact absurd ht (List.not_mem_nil t)
  | cons p rest ih =>
    cases rest with
    | nil =>
      rcases List.mem_cons.mp ht with he | hm
      · subst he
        simpa [joinSep] using hx
      · exact absurd hm (List.not_mem_nil t)
    | cons q rest2 =>
      simp only [joinSep]
      rcases List.mem_cons.mp ht with he | hm
      · subst he
        exact List.mem_append.mpr (Or.inl (List.mem_append.mpr (Or.inl hx)))
      · exact List.mem_append.mpr (Or.inr (ih hm))

theorem sep_mem_joinSep {sep : Str} {p q : Str} {rest : List Str} {x : Char}
    (hx : x ∈ sep) : x ∈ joinSep sep (p :: q :: rest) := by
  simp only [joinSep]
  exact List.mem_append.mpr (Or.inl (List.mem_append.mpr (Or.inr hx)))

theorem joinSep_append {sep : Str} {a b : List Str} (ha : a ≠ []) (hb : b ≠ []) :
    joinSep sep (a ++ b) = joinSep sep a ++ sep ++ joinSep sep b := by
  induction a with
  | nil => exact absurd rfl ha
  | cons x xs ih =>
    cases xs with
    | nil =>
      cases b with
      | nil => exact absurd rfl hb
      | cons y ys => simp [joinSep]
    | cons z zs =>
      have hih := ih (List.cons_ne_nil z zs)
      rw [List.cons_append] at hih ⊢
      simp only [joinSep, List.append_eq]
      rw [hih]
      simp [List.append_assoc]

theorem joinSep_head_decomp (sep : Str) (p : Str) (rest : List Str) :
    ∃ T, joinSep sep (p :: rest) = p ++ T := by
  cases rest with
  | nil => exact ⟨[], by simp [joinSep]⟩
  | cons q rest2 => exact ⟨sep ++ joinSep sep (q :: rest2), by simp [joinSep]⟩

theorem joinSep_last_decomp (sep : Str) (ps : List Str) (h : ps ≠ []) :
    ∃ q T, q ∈ ps ∧ joinSep sep ps = T ++ q := by
  induction ps with
  | nil => exact absurd rfl h
  | cons p rest ih =>
    cases rest with
    | nil => exact ⟨p, [], List.mem_cons_self p [], by simp [joinSep]⟩
    | cons q rest2 =>
      obtain ⟨q2, T, hq, hT⟩ := ih (List.cons_ne_nil q rest2)
      refine ⟨q2, p ++ sep ++ T, List.mem_cons_of_mem p hq, ?_⟩
      simp only [joinSep, hT]
      simp [List.append_assoc]

/-- `strLt` as a relation. -/
def strLtP (a b : Str) : Prop := strLt a b = true

theorem strLt_cons_cons {x y : Char} {as bs : Str} :
    strLt (x :: as) (y :: bs) = true ↔ (x < y ∨ (x = y ∧ strLt as bs = true)) := by
  simp only [strLt]
  rcases lt_trichotomy x y with h | h | h
  · simp [h]
  · subst h
    simp [lt_irrefl]
  · have h1 : ¬ x < y := lt_asymm h
    rw [if_neg h1, if_pos h]
    constructor
    · intro hf
      exact Bool.noConfusion hf
    · rintro (hc | ⟨he, _⟩)
      · exact absurd hc h1
      · exact absurd (he ▸ h) (lt_irrefl y)

theorem strLt_trans : ∀ {a b c : Str},
    strLt a b = true → strLt b c = true → strLt a c = true := by
  intro a
  induction a with
  | nil =>
    intro b c hab hbc
    cases b with
    | nil => exact absurd hab (by simp [strLt])
    | cons y bs =>
      cases c with
      | nil => exact absurd hbc (by simp [strLt])
      | cons z cs => simp [strLt]
  | cons x as ih =>
    intro b c hab hbc
    cases b with
    | nil => exact absurd hab (by simp [strLt])
    | cons y bs =>
      cases c with
      | nil => exact absurd hbc (by simp [strLt])
      | cons z cs =>
        rw [strLt_cons_cons] at hab hbc ⊢
        rcases hab with h1 | ⟨he1, hs1⟩
        · rcases hbc with h2 | ⟨he2, hs2⟩
          · exact Or.inl (lt_trans h1 h2)
          · exact Or.inl (he2 ▸ h1)
        · rcases hbc with h2 | ⟨he2, hs2⟩
          · exact Or.inl (he1 ▸ h2)
          · exact Or.inr ⟨he1.trans he2, ih hs1 hs2⟩

theorem strLt_total : ∀ {a b : Str}, a ≠ b →
    strLt a b = true ∨ strLt b a = true := by
  intro a
  induction a with
  | nil =>
    intro b hne
    cases b with
    | nil => exact absurd rfl hne
    | cons y bs => exact Or.inl (by simp [strLt])
  | cons x as ih =>
    intro b hne
    cases b with
    | nil => exact Or.inr (by simp [strLt])
    | cons y bs =>
      rcases lt_trichotomy x y with h | h | h
      · exact Or.inl (strLt_cons_cons.mpr (Or.inl h))
      · subst h
        have hne2 : as ≠ bs := fun he => hne (by rw [he])
        rcases ih hne2 with h2 | h2
        · exact Or.inl (strLt_cons_cons.mpr (Or.inr ⟨rfl, h2⟩))
        · exact Or.inr (strLt_cons_cons.mpr (Or.inr ⟨rfl, h2⟩))
      · exact Or.inr (strLt_cons_cons.mpr (Or.inl h))

theorem mem_insertUniq {x : Str} {l : List Str} {z : Str}
    (h : z ∈ insertUniq x l) : z = x ∨ z ∈ l := by
  induction l with
  | nil => simpa [insertUniq] using h
  | cons y ys ih =>
    simp only [insertUniq] at h
    by_cases h1 : x = y
    · rw [if_pos h1] at h
      exact Or.inr h
    · rw [if_neg h1] at h
      by_cases h2 : strLt x y = true
      · rw [if_pos h2] at h
        rcases List.mem_cons.mp h with he | hm
        · exact Or.inl he
        · exact Or.inr hm
      · rw [if_neg h2] at h
        rcases List.mem_cons.mp h with he | hm
        · exact Or.inr (he ▸ List.mem_cons_self y ys)
        · rcases ih hm with ha | hb
          · exact Or.inl ha
          · exact Or.inr (List.mem_cons_of_mem y hb)

theorem pairwise_insertUniq {x : Str} {l : List Str}
    (h : l.Pairwise strLtP) : (insertUniq x l).Pairwise strLtP := by
  induction l with
  | nil => simp [insertUniq]
  | cons y ys ih =>
    rw [List.pairwise_cons] at h
    obtain ⟨hy, hys⟩ := h
    simp only [insertUniq]
    by_cases h1 : x = y
    · rw [if_pos h1, List.pairwise_cons]
      exact ⟨hy, hys⟩
    · rw [if_neg h1]
      by_cases h2 : strLt x y = true
      · rw [if_pos h2, List.pairwise_cons]
        refine ⟨?_, List.pairwise_cons.mpr ⟨hy, hys⟩⟩
        intro z hz
        rcases List.mem_cons.mp hz with he | hm
        · exact he.symm ▸ h2
        · exact strLt_trans h2 (hy z hm)
      · rw [if_neg h2, List.pairwise_cons]
        refine ⟨?_, ih hys⟩
        intro z hz
        rcases mem_insertUniq hz with he | hm
        · subst he
          rcases strLt_total (fun he2 : y = z => h1 he2.symm) with ht | ht
          · exact ht
          · exact absurd ht h2
        · exact hy z hm

theorem pairwise_npUnique (l : List Str) : (npUnique l).Pairwise strLtP := by
  induction l with
  | nil => simp [npUnique]
  | cons x xs ih =>
    simp only [npUnique, List.foldr_cons]
    exact pairwise_insertUniq ih

theorem self_mem_insertUniq (x : Str) (l : List Str) : x ∈ insertUniq x l := by
  induction l with
  | nil => simp [insertUniq]
  | cons y ys ih =>
    simp only [insertUniq]
    by_cases h1 : x = y
    · rw [if_pos h1]
      exact h1 ▸ List.mem_cons_self y ys
    · rw [if_neg h1]
      by_cases h2 : strLt x y = true
      · rw [if_pos h2]
        exact List.mem_cons_self x _
      · rw [if_neg h2]
        exact List.mem_cons_of_mem y ih

theorem mem_insertUniq_of_mem {z : Str} {l : List Str} (x : Str)
    (h : z ∈ l) : z ∈ insertUniq x l := by
  induction l with
  | nil => exact absurd h (List.not_mem_nil z)
  | cons y ys ih =>
    simp only [insertUniq]
    by_cases h1 : x = y
    · rw [if_pos h1]
      exact h
    · rw [if_neg h1]
      by_cases h2 : strLt x y = true
      · rw [if_pos h2]
        exact List.mem_cons_of_mem x h
      · rw [if_neg h2]
        rcases List.mem_cons.mp h with he | hm
        · exact he ▸ List.mem_cons_self y _
        · exact List.mem_cons_of_mem y (ih hm)

theorem mem_npUnique {l : List Str} {v : Str} : v ∈ npUnique l ↔ v ∈ l := by
  induction l with
  | nil => simp [npUnique]
  | cons x xs ih =>
    simp only [npUnique, List.foldr_cons] at ih ⊢
    constructor
    · intro h
      rcases mem_insertUniq h with he | hm
      · exact he ▸ List.mem_cons_self x xs
      · exact List.mem_cons_of_mem x (ih.mp hm)
    · intro h
      rcases List.mem_cons.mp h with he | hm
      · exact he ▸ self_mem_insertUniq x _
      · exact mem_insertUniq_of_mem x (ih.mpr hm)

theorem mem_reduce1_append {α : Type} {L : List (List α)} {w : List α}
    (h : reduce1 (· ++ ·) L = some w) {v : α} :
    v ∈ w ↔ ∃ t ∈ L, v ∈ t := by
  cases L with
  | nil => exact absurd h (by simp [reduce1])
  | cons t ts =>
    simp only [reduce1, Option.some.injEq] at h
    subst h
    induction ts generalizing t with
    | nil => simp
    | cons u us ih =>
      rw [List.foldl_cons, ih (t ++ u)]
      constructor
      · rintro ⟨x, hx, hv⟩
        rcases List.mem_cons.mp hx with he | hm
        · subst he
          rcases List.mem_append.mp hv with h1 | h2
          · exact ⟨t, List.mem_cons_self _ _, h1⟩
          · exact ⟨u, List.mem_cons_of_mem _ (List.mem_cons_self _ _), h2⟩
        · exact ⟨x, List.mem_cons_of_mem _ (List.mem_cons_of_mem _ hm), hv⟩
      · rintro ⟨x, hx, hv⟩
        rcases List.mem_cons.mp hx with he | hm
        · exact ⟨t ++ u, List.mem_cons_self _ _,
            List.mem_append.mpr (Or.inl (he ▸ hv))⟩
        · rcases List.mem_cons.mp hm with he2 | hm2
          · exact ⟨t ++ u, List.mem_cons_self _ _,
              List.mem_append.mpr (Or.inr (he2 ▸ hv))⟩
          · exact ⟨x, List.mem_cons_of_mem _ hm2, hv⟩

theorem finishIx_ok {o : Str} {preds : List Str} {L : List (List Str)}
    {out : ParseOut} (h : finishIx o preds L = .ok out) :
    out.y = o ∧ out.x = preds ++ out.missing ∧ out.ixs = some L ∧
      out.missing.Pairwise strLtP ∧
      (∀ v, v ∈ out.missing ↔ (∃ t ∈ L, v ∈ t) ∧ v ∉ preds) := by
  unfold finishIx at h
  split at h
  · exact absurd h (by simp)
  · rename_i allvars heq
    injection h with h2
    subst h2
    refine ⟨rfl, rfl, rfl, (pairwise_npUnique _).filter _, ?_⟩
    intro v
    rw [List.mem_filter]
    constructor
    · rintro ⟨hv, hb⟩
      refine ⟨(mem_reduce1_append heq).mp (mem_npUnique.mp hv), fun hmem => ?_⟩
      rw [contains_iff_mem.mpr hmem] at hb
      simp at hb
    · rintro ⟨⟨t, ht, hvt⟩, hnp⟩
      refine ⟨mem_npUnique.mpr ((mem_reduce1_append heq).mpr ⟨t, ht, hvt⟩), ?_⟩
      cases hb2 : preds.contains v with
      | false => rfl
      | true => exact absurd (contains_iff_mem.mp hb2) hnp

theorem parseIx_ok {o : Str} {preds predictors : List Str} {out : ParseOut}
    (h : parseIx o preds predictors = .ok out) :
    out.y = o ∧ out.x = preds ++ out.missing ∧ out.missing.Pairwise strLtP ∧
      ∃ L, out.ixs = some L ∧
        (∀ v, v ∈ out.missing ↔ (∃ t ∈ L, v ∈ t) ∧ v ∉ preds) := by
  unfold parseIx at h
  split at h
  · exact absurd h (by simp)
  · split at h
    · exact absurd h (by simp)
    · obtain ⟨h1, h2, h3, h4, h5⟩ := finishIx_ok h
      exact ⟨h1, h2, h4, _, h3, h5⟩

theorem parseIx_ne_sep (o : Str) (preds predictors : List Str) :
    parseIx o preds predictors ≠ .err .formatSeparator := by
  unfold parseIx
  split
  · simp
  · split
    · simp
    · unfold finishIx
      split
      · simp
      · simp

theorem parse_formula_eq_two {f l r : Str} (hs : split '~' f = [l, r]) :
    parse_formula f =
      if f.contains '*' || f.contains ':' then
        parseIx (strip l) (plainPreds (split '+' (strip r))) (split '+' (strip r))
      else .ok ⟨strip l, plainPreds (split '+' (strip r)), none, []⟩ := by
  unfold parse_formula
  rw [hs]

theorem parse_formula_eq_sep {f : Str} (h2 : (split '~' f).length ≠ 2) :
    parse_formula f = .err .formatSeparator := by
  unfold parse_formula
  cases hs : split '~' f with
  | nil => rfl
  | cons l rest =>
    cases rest with
    | nil => rfl
    | cons r rest2 =>
      cases rest2 with
      | nil => exact absurd (by rw [hs]; rfl) h2
      | cons t rest3 => rfl

theorem parse_ne_sep_of_two {f l r : Str} (hs : split '~' f = [l, r]) :
    parse_formula f ≠ .err .formatSeparator := by
  rw [parse_formula_eq_two hs]
  split
  · exact parseIx_ne_sep _ _ _
  · simp

theorem exists_two_of_length {L : List Str} (h : L.length = 2) :
    ∃ l r, L = [l, r] := by
  cases L with
  | nil => simp at h
  | cons a t =>
    cases t with
    | nil => simp at h
    | cons b t2 =>
      cases t2 with
      | nil => exact ⟨a, b, rfl⟩
      | cons c t3 => simp at h

theorem parse_ok_y {f : Str} {out : ParseOut} (h : parse_formula f = .ok out) :
    ∃ l r, split '~' f = [l, r] ∧ out.y = strip l := by
  cases h2 : (split '~' f).length.decEq 2 with
  | isTrue ht =>
    obtain ⟨l, r, hs⟩ := exists_two_of_length ht
    refine ⟨l, r, hs, ?_⟩
    rw [parse_formula_eq_two hs] at h
    split at h
    · exact (parseIx_ok h).1
    · injection h with h3
      subst h3
      rfl
  | isFalse hf =>
    rw [parse_formula_eq_sep hf] at h
    exact absurd h (by simp)

theorem contains_eq_false {α : Type} [BEq α] [LawfulBEq α] {s : List α} {c : α} :
    s.contains c = false ↔ c ∉ s := by
  constructor
  · intro h hc
    rw [contains_iff_mem.mpr hc] at h
    exact Bool.noConfusion h
  · intro h
    cases hb : s.contains c with
    | false => rfl
    | true => exact absurd (contains_iff_mem.mp hb) h

theorem mem_rejoinTerm {p : Str} {x : Char} (h : x ∈ rejoinTerm p) :
    x ∈ p ∨ x = (if p.contains ':' then ':' else '*') := by
  unfold rejoinTerm at h
  rcases mem_joinSep h with hs | ⟨t, ht, hx⟩
  · right
    rcases List.mem_cons.mp hs with he | hm
    · exact he
    · exact absurd hm (List.not_mem_nil x)
  · left
    rcases List.mem_map.mp ht with ⟨u, hu, hut⟩
    subst hut
    exact mem_of_mem_split hu (mem_of_mem_strip hx)

theorem mkIxs1_no_star {predictors : List Str}
    (hp : ∀ p ∈ predictors, '*' ∉ p) :
    ∀ q ∈ mkIxs1 predictors, q.contains '*' = false := by
  intro q hq
  unfold mkIxs1 at hq
  rcases List.mem_map.mp hq with ⟨p, hpf, hpq⟩
  subst hpq
  have hpp := List.mem_filter.mp hpf
  have hnostar : '*' ∉ p := hp p hpp.1
  apply contains_eq_false.mpr
  intro hmem
  rcases mem_rejoinTerm hmem with h1 | h2
  · exact hnostar h1
  · have hc : p.contains ':' = true := by
      have hor := hpp.2
      rw [Bool.or_eq_true] at hor
      rcases hor with h3 | h3
      · exact h3
      · exact absurd (contains_iff_mem.mp h3) hnostar
    rw [if_pos hc] at h2
    exact absurd h2 (by decide)

theorem two_le_length_split {c : Char} {p : Str} (h : c ∈ p) :
    2 ≤ (split c p).length := by
  rw [length_split]
  have hne : p.count c ≠ 0 := by
    intro h0
    rw [List.count_eq_zero] at h0
    exact h0 h
  omega

theorem sep_char_mem_joinSep {c : Char} {xs : List Str} (h : 2 ≤ xs.length) :
    c ∈ joinSep [c] xs := by
  cases xs with
  | nil => simp at h
  | cons x rest =>
    cases rest with
    | nil => simp at h
    | cons y rest2 => exact sep_mem_joinSep (List.mem_cons_self c [])

theorem mem_formula_of_mem_term {f l r p : Str} (hs : split '~' f = [l, r])
    (hp : p ∈ split '+' (strip r)) {x : Char} (hx : x ∈ p) : x ∈ f := by
  have h1 : x ∈ strip r := mem_of_mem_split hp hx
  have h2 : x ∈ r := mem_of_mem_strip h1
  have hr : r ∈ split '~' f := by
    rw [hs]
    exact List.mem_cons_of_mem _ (List.mem_cons_self _ _)
  exact mem_of_mem_split hr h2

/-- Claim C1: for every formula string with exactly one tilde that
contains a colon somewhere and no asterisk, `parse_formula` raises an
exception instead of returning a specification, because the
reformulation of the asterisk shorthand terms reduces an empty list
with no initial value; no such input reaches the return statement. -/
theorem C1_colon_only_always_raises (f : Str) (h1 : f.count '~' = 1)
    (h2 : f.contains ':' = true) (h3 : f.contains '*' = false) :
    parse_formula f = .err .emptyReduce := by
  have hlen : (split '~' f).length = 2 := by rw [length_split, h1]
  obtain ⟨l, r, hs⟩ := exists_two_of_length hlen
  rw [parse_formula_eq_two hs, if_pos (by rw [h3, h2]; decide)]
  have hnostar : '*' ∉ f := contains_eq_false.mp h3
  have hpred : ∀ p ∈ split '+' (strip r), '*' ∉ p :=
    fun p hp hmem => hnostar (mem_formula_of_mem_term hs hp hmem)
  have hq := mkIxs1_no_star hpred
  unfold parseIx
  rw [if_neg ?hmix]
  case hmix =>
    intro hany
    rcases List.any_eq_true.mp hany with ⟨q, hq2, hqq⟩
    rw [hq q hq2] at hqq
    simp at hqq
  have hstar : ixStar (mkIxs1 (split '+' (strip r))) = [] := by
    unfold ixStar
    rw [List.filter_eq_nil_iff.mpr (fun q hq2 => by rw [hq q hq2]; simp)]
    rfl
  rw [hstar]
  rfl

/-- Claim C1 witness: the hypotheses are satisfied by the concrete
formula `y ~ a + b + a:b`, on which the parser raises. -/
theorem C1_colon_only_always_raises_witness :
    "y ~ a + b + a:b".data.count '~' = 1 ∧
    "y ~ a + b + a:b".data.contains ':' = true ∧
    "y ~ a + b + a:b".data.contains '*' = false ∧
    parse_formula "y ~ a + b + a:b".data = .err .emptyReduce :=
  ⟨by decide, by decide, by decide,
    C1_colon_only_always_raises _ (by decide) (by decide) (by decide)⟩

/-- Claim C2 (code bug evidence): both `y ~ a + b + a:b` and
`y ~ a + b + b:a` crash with the empty-reduce `TypeError` instead of
succeeding, so the delimiter-identity property the claim states cannot
hold on this code. -/
theorem C2_both_colon_forms_crash :
    parse_formula "y ~ a + b + a:b".data = .err .emptyReduce ∧
    parse_formula "y ~ a + b + b:a".data = .err .emptyReduce :=
  ⟨by decide, by decide⟩

/-- Claim C7: a formula in which a single raw term carries both the
colon and the asterisk delimiter is rejected with the mixed-delimiter
FormatKind error, and no partial specification is returned. -/
theorem C7_mixed_term_rejected (f l r p : Str) (hs : split '~' f = [l, r])
    (hp : p ∈ split '+' (strip r)) (hc : p.contains ':' = true)
    (hstar : p.contains '*' = true) :
    parse_formula f = .err .formatMixed := by
  have hstarf : f.contains '*' = true :=
    contains_iff_mem.mpr (mem_formula_of_mem_term hs hp (contains_iff_mem.mp hstar))
  rw [parse_formula_eq_two hs, if_pos (by rw [hstarf]; rfl)]
  unfold parseIx
  rw [if_pos ?hany]
  case hany =>
    refine List.any_eq_true.mpr ⟨rejoinTerm p, ?_, ?_⟩
    · unfold mkIxs1
      exact List.mem_map.mpr
        ⟨p, List.mem_filter.mpr ⟨hp, by rw [hc]; rfl⟩, rfl⟩
    · have hd : (if p.contains ':' then ':' else '*') = ':' := if_pos hc
      have hcolon : ':' ∈ rejoinTerm p := by
        unfold rejoinTerm
        rw [hd]
        apply sep_char_mem_joinSep
        rw [List.length_map]
        exact two_le_length_split (contains_iff_mem.mp hc)
      have hstar2 : '*' ∈ rejoinTerm p := by
        unfold rejoinTerm
        rw [hd]
        obtain ⟨t, ht, hxt⟩ :=
          mem_split_of_mem (c := ':') (contains_iff_mem.mp hstar) (by decide)
        exact mem_joinSep_of_mem (List.mem_map.mpr ⟨t, ht, rfl⟩)
          (mem_strip_of_not_space hxt (by decide))
      rw [contains_iff_mem.mpr hcolon, contains_iff_mem.mpr hstar2]
      rfl

/-- Claim C7 witness: the hypotheses are satisfied by the concrete
formula `y ~ a + b + a:b*c`, whose third raw term mixes the
delimiters. -/
theorem C7_mixed_term_rejected_witness :
    " a:b*c".data ∈ split '+' (strip " a + b + a:b*c".data) ∧
    parse_formula "y ~ a + b + a:b*c".data = .err .formatMixed :=
  ⟨by decide,
    C7_mixed_term_rejected _ "y ".data " a + b + a:b*c".data " a:b*c".data
      (by decide) (by decide) (by decide) (by decide)⟩

/-- Claim C3 counterexample: the claimed example `y ~ a + a:d` raises
the empty-reduce error instead of returning predictors `[a, d]`, and on
the asterisk analogue with two implied variables the code appends them
in sorted order `[b, d]`, not in the first-appearance order `[d, b]`
of the interaction-term scan. -/
theorem C3_counterexample :
    parse_formula "y ~ a + a:d".data = .err .emptyReduce ∧
    parse_formula "y ~ z + z*d + z*b".data =
      .ok ⟨"y".data, ["z".data, "b".data, "d".data],
           some [["z".data, "d".data], ["z".data, "b".data]],
           ["b".data, "d".data]⟩ ∧
    ["z".data, "b".data, "d".data] ≠ ["z".data, "d".data, "b".data] :=
  ⟨by decide, by decide, by decide⟩

/-- Claim C3 (amended): whenever `parse_formula` succeeds, the
predictors are the plain trimmed terms of the formula followed by the
warned variable names; the warned names are in strictly increasing
lexicographic order (the `np.unique` order, not first-appearance
order); and they are exactly the variables occurring in the returned
deduplicated interaction terms that are not among the plain
predictors (with no interaction delimiter, the interaction field is
`none` and nothing is warned). -/
theorem C3_missing_appended_sorted (f : Str) (out : ParseOut)
    (h : parse_formula f = .ok out) :
    ∃ l r, split '~' f = [l, r] ∧
      out.x = plainPreds (split '+' (strip r)) ++ out.missing ∧
      out.missing.Pairwise strLtP ∧
      ((out.ixs = none ∧ out.missing = []) ∨
        ∃ L, out.ixs = some L ∧
          ∀ v, v ∈ out.missing ↔
            (∃ t ∈ L, v ∈ t) ∧ v ∉ plainPreds (split '+' (strip r))) := by
  cases h2 : (split '~' f).length.decEq 2 with
  | isTrue ht =>
    obtain ⟨l, r, hs⟩ := exists_two_of_length ht
    refine ⟨l, r, hs, ?_⟩
    rw [parse_formula_eq_two hs] at h
    split at h
    · obtain ⟨hy, hx, hpw, L, hL, hiff⟩ := parseIx_ok h
      exact ⟨hx, hpw, Or.inr ⟨L, hL, hiff⟩⟩
    · injection h with h3
      subst h3
      exact ⟨by simp, by simp, Or.inl ⟨rfl, rfl⟩⟩
  | isFalse hf =>
    rw [parse_formula_eq_sep hf] at h
    exact absurd h (by simp)

/-- Claim C3 amended witness: instantiated on `y ~ a + a*d`, which
succeeds with predictors `[a, d]`, interaction term the pair of `a`
and `d`, and a warning naming exactly `d` (the interaction variable
not among the plain predictors). -/
theorem C3_missing_appended_sorted_witness :
    parse_formula "y ~ a + a*d".data =
      .ok ⟨"y".data, ["a".data, "d".data], some [["a".data, "d".data]],
           ["d".data]⟩ ∧
    (∃ l r, split '~' "y ~ a + a*d".data = [l, r] ∧
      (["a".data, "d".data] : List Str) =
        plainPreds (split '+' (strip r)) ++ ["d".data] ∧
      (["d".data] : List Str).Pairwise strLtP ∧
      (((some [["a".data, "d".data]] : Option (List (List Str))) = none ∧
          (["d".data] : List Str) = []) ∨
        ∃ L, (some [["a".data, "d".data]] : Option (List (List Str))) =
            some L ∧
          ∀ v, v ∈ (["d".data] : List Str) ↔
            (∃ t ∈ L, v ∈ t) ∧ v ∉ plainPreds (split '+' (strip r)))) :=
  ⟨by decide,
    C3_missing_appended_sorted "y ~ a + a*d".data
      ⟨"y".data, ["a".data, "d".data], some [["a".data, "d".data]],
       ["d".data]⟩ (by decide)⟩

/-- Claim C4 counterexample: `y ~ a + a` parses with the token `a`
kept twice in the predictors, so duplicates are not removed by first
occurrence. -/
theorem C4_counterexample :
    parse_formula "y ~ a + a".data =
      .ok ⟨"y".data, ["a".data, "a".data], none, []⟩ ∧
    ¬ (["a".data, "a".data].count "a".data = 1) :=
  ⟨by decide, by decide⟩

/-- Claim C4 (amended): for a formula with exactly one tilde and no
interaction delimiter, the returned predictors are the plain raw terms
to the right of the separator, trimmed, in order of appearance, with
duplicates retained (no deduplication happens). -/
theorem C4_plain_terms_kept_verbatim (f l r : Str) (hs : split '~' f = [l, r])
    (hc : f.contains ':' = false) (hstar : f.contains '*' = false) :
    parse_formula f =
      .ok ⟨strip l, (split '+' (strip r)).map strip, none, []⟩ := by
  rw [parse_formula_eq_two hs, if_neg (by rw [hc, hstar]; decide)]
  have hfil : (split '+' (strip r)).filter
      (fun p => !(p.contains ':') && !(p.contains '*')) = split '+' (strip r) := by
    apply List.filter_eq_self.mpr
    intro p hp
    have hcp : p.contains ':' = false := by
      apply contains_eq_false.mpr
      intro hmem
      have hcf : ':' ∈ f := mem_formula_of_mem_term hs hp hmem
      rw [contains_iff_mem.mpr hcf] at hc
      exact Bool.noConfusion hc
    have hsp : p.contains '*' = false := by
      apply contains_eq_false.mpr
      intro hmem
      have hcf : '*' ∈ f := mem_formula_of_mem_term hs hp hmem
      rw [contains_iff_mem.mpr hcf] at hstar
      exact Bool.noConfusion hstar
    rw [hcp, hsp]
    rfl
  unfold plainPreds
  rw [hfil]

/-- Claim C4 amended witness: instantiated on `y ~ a + a`, whose
predictors keep both occurrences of `a`. -/
theorem C4_plain_terms_kept_verbatim_witness :
    parse_formula "y ~ a + a".data =
      .ok ⟨strip "y ".data, (split '+' (strip " a + a".data)).map strip,
           none, []⟩ :=
  C4_plain_terms_kept_verbatim "y ~ a + a".data "y ".data " a + a".data
    (by decide) (by decide) (by decide)

/-- Claim C8 counterexample: `y ~ a:b*c` contains exactly one tilde
yet fails with the mixed-delimiter error, which the specification
classifies as FormatKind, so FormatKind failures are not equivalent to
a wrong tilde count. -/
theorem C8_counterexample :
    "y ~ a:b*c".data.count '~' = 1 ∧
    parse_formula "y ~ a:b*c".data = .err .formatMixed ∧
    PErr.formatMixed.isFormat = true :=
  ⟨by decide, by decide, rfl⟩

/-- Claim C8 (amended): `parse_formula` fails with the separator
FormatKind error exactly when the formula does not contain exactly one
tilde; a formula with exactly one tilde can still fail with the other
FormatKind error (mixed delimiters); and on success the outcome is the
trimmed left side of the separator. -/
theorem C8_separator_error_iff (f : Str) :
    (parse_formula f = .err .formatSeparator ↔ ¬ f.count '~' = 1) ∧
    (∀ out, parse_formula f = .ok out →
      ∃ l r, split '~' f = [l, r] ∧ out.y = strip l) := by
  constructor
  · constructor
    · intro h hcount
      have hlen : (split '~' f).length = 2 := by rw [length_split, hcount]
      obtain ⟨l, r, hs⟩ := exists_two_of_length hlen
      exact parse_ne_sep_of_two hs h
    · intro hcount
      apply parse_formula_eq_sep
      rw [length_split]
      omega
  · intro out h
    exact parse_ok_y h

/-- Claim C8 amended witness: `y + a` has no tilde and fails with the
separator error; `y ~ a` succeeds with outcome the trimmed left side. -/
theorem C8_separator_error_iff_witness :
    parse_formula "y + a".data = .err .formatSeparator ∧
    (∃ l r, split '~' "y ~ a".data = [l, r] ∧
      (ParseOut.mk "y".data ["a".data] none []).y = strip l) :=
  ⟨(C8_separator_error_iff "y + a".data).1.mpr (by decide),
   (C8_separator_error_iff "y ~ a".data).2
     ⟨"y".data, ["a".data], none, []⟩ (by decide)⟩

/-- Claim C9 counterexample: `parse_formula` applies no validation to
the outcome: parsing `~ a` returns an empty outcome and parsing
`y ~ y` returns an outcome equal to a predictor, so the claimed
invariant is false. -/
theorem C9_counterexample :
    parse_formula "~ a".data = .ok ⟨[], ["a".data], none, []⟩ ∧
    parse_formula "y ~ y".data = .ok ⟨"y".data, ["y".data], none, []⟩ ∧
    ¬ (∀ f out, parse_formula f = .ok out → out.y ≠ [] ∧ out.y ∉ out.x) := by
  refine ⟨by decide, by decide, fun hall => ?_⟩
  exact (hall "~ a".data ⟨[], ["a".data], none, []⟩ (by decide)).1 rfl

/-- Claim C9 (amended): on success the outcome is exactly the trimmed
left side of the tilde separator; it is not validated, and may be
empty or equal to a predictor. -/
theorem C9_outcome_is_trimmed_left (f : Str) (out : ParseOut)
    (h : parse_formula f = .ok out) :
    ∃ l r, split '~' f = [l, r] ∧ out.y = strip l :=
  parse_ok_y h

/-- Claim C9 amended witness: instantiated on `y ~ a`. -/
theorem C9_outcome_is_trimmed_left_witness :
    ∃ l r, split '~' "y ~ a".data = [l, r] ∧
      (ParseOut.mk "y".data ["a".data] none []).y = strip l :=
  C9_outcome_is_trimmed_left "y ~ a".data ⟨"y".data, ["a".data], none, []⟩
    (by decide)

/-- Claim C10 counterexample: with an empty interactions sequence,
`create_formula` emits a dangling `" + "`, so its output is not the
claimed join of predictors and interactions. -/
theorem C10_counterexample :
    create_formula "y".data ["a".data, "b".data] (some []) =
      "y ~ a + b + ".data ∧
    create_formula "y".data ["a".data, "b".data] (some []) ≠
      composeJoinedForm "y".data ["a".data, "b".data] [] :=
  ⟨by decide, by decide⟩

/-- Claim C10 (amended): for every outcome and nonempty sequences of
predictor tokens and interaction strings, `create_formula` returns the
outcome, the tilde separator, then predictors followed by interactions
joined with `" + "` in input order, each interaction inserted
verbatim. -/
theorem C10_compose_joins_terms (o : Str) (ps ixs : List Str)
    (hps : ps ≠ []) (hixs : ixs ≠ []) :
    create_formula o ps (some ixs) = composeJoinedForm o ps ixs := by
  show o ++ " ~ ".data ++ joinSep " + ".data ps ++ " + ".data ++
      joinSep " + ".data ixs = _
  unfold composeJoinedForm
  rw [joinSep_append hps hixs]
  simp [List.append_assoc]

/-- Claim C10 amended witness: the claimed concrete example
`compose("y", ["a","b"], ["a:b"]) = "y ~ a + b + a:b"`. -/
theorem C10_compose_joins_terms_witness :
    create_formula "y".data ["a".data, "b".data] (some ["a:b".data]) =
      composeJoinedForm "y".data ["a".data, "b".data] ["a:b".data] ∧
    composeJoinedForm "y".data ["a".data, "b".data] ["a:b".data] =
      "y ~ a + b + a:b".data :=
  ⟨C10_compose_joins_terms _ _ _ (by decide) (by decide), by decide⟩

theorem joinSep_no_special {ps : List Str} (hps : ∀ p ∈ ps, cleanToken p)
    {x : Char} (hx : x ∈ joinSep " + ".data ps) :
    x ≠ '~' ∧ x ≠ ':' ∧ x ≠ '*' := by
  rcases mem_joinSep hx with hsep | ⟨t, ht, hxt⟩
  · have hs2 : x ∈ [' ', '+', ' '] := hsep
    simp only [List.mem_cons, List.not_mem_nil, or_false] at hs2
    rcases hs2 with h | h | h <;> subst h <;> exact ⟨by decide, by decide, by decide⟩
  · have hc := (hps t ht).2 x hxt
    exact ⟨hc.1, hc.2.2.1, hc.2.2.2.1⟩

theorem formula_no_special {o : Str} {ps : List Str} (ho : cleanToken o)
    (hps : ∀ p ∈ ps, cleanToken p) {x : Char}
    (hx : x ∈ o ++ " ~ ".data ++ joinSep " + ".data ps) :
    x ≠ ':' ∧ x ≠ '*' := by
  rcases List.mem_append.mp hx with h1 | hJ
  · rcases List.mem_append.mp h1 with ho2 | hmid
    · have hh := ho.2 x ho2
      exact ⟨hh.2.2.1, hh.2.2.2.1⟩
    · have hs2 : x ∈ [' ', '~', ' '] := hmid
      simp only [List.mem_cons, List.not_mem_nil, or_false] at hs2
      rcases hs2 with h | h | h <;> subst h <;> exact ⟨by decide, by decide⟩
  · have hh := joinSep_no_special hps hJ
    exact ⟨hh.2.1, hh.2.2⟩

theorem strip_joinSep_eq {ps : List Str} (hps : ∀ p ∈ ps, cleanToken p)
    (hne : ps ≠ []) :
    strip (joinSep " + ".data ps) = joinSep " + ".data ps := by
  obtain ⟨p, rest, rfl⟩ : ∃ p rest, ps = p :: rest := by
    cases ps with
    | nil => exact absurd rfl hne
    | cons p rest => exact ⟨p, rest, rfl⟩
  apply strip_eq_self_of_head_last
  · obtain ⟨T, hT⟩ := joinSep_head_decomp " + ".data p rest
    rw [hT]
    have hp := hps p (List.mem_cons_self p rest)
    obtain ⟨c, p2, rfl⟩ : ∃ c p2, p = c :: p2 := by
      cases p with
      | nil => exact absurd rfl hp.1
      | cons c p2 => exact ⟨c, p2, rfl⟩
    simp only [List.cons_append, List.headI_cons]
    exact (hp.2 c (List.mem_cons_self c p2)).2.2.2.2
  · obtain ⟨q, T2, hq, hT2⟩ := joinSep_last_decomp " + ".data (p :: rest)
      (List.cons_ne_nil p rest)
    rw [hT2]
    have hq2 := hps q hq
    obtain ⟨d, w, hw⟩ : ∃ d w, q.reverse = d :: w := by
      cases hqr : q.reverse with
      | nil => exact absurd (List.reverse_eq_nil_iff.mp hqr) hq2.1
      | cons d w => exact ⟨d, w, rfl⟩
    rw [List.reverse_append, hw]
    simp only [List.cons_append, List.headI_cons]
    have hdq : d ∈ q := by
      have hd2 : d ∈ q.reverse := by
        rw [hw]
        exact List.mem_cons_self d w
      exact List.mem_reverse.mp hd2
    exact (hq2.2 d hdq).2.2.2.2

theorem map_strip_split_aux (ps : List Str) (hps : ∀ p ∈ ps, cleanToken p)
    (hne : ps ≠ []) :
    (split '+' (' ' :: joinSep " + ".data ps)).map strip = ps := by
  induction ps with
  | nil => exact absurd rfl hne
  | cons p rest ih =>
    have hp := hps p (List.mem_cons_self p rest)
    cases rest with
    | nil =>
      have hnp : '+' ∉ (' ' :: p) := by
        intro hmem
        rcases List.mem_cons.mp hmem with he | hm
        · exact absurd he (by decide)
        · exact (hp.2 '+' hm).2.1 rfl
      have hj : joinSep " + ".data [p] = p := rfl
      rw [hj, split_not_mem hnp]
      simp only [List.map_cons, List.map_nil]
      rw [strip_cons_space (by decide),
        strip_eq_self_of_forall (fun x hx => (hp.2 x hx).2.2.2.2)]
    | cons q rest2 =>
      have key : (' ' :: joinSep " + ".data (p :: q :: rest2)) =
          ((' ' :: p) ++ [' ']) ++ '+' :: (' ' :: joinSep " + ".data (q :: rest2)) := by
        show ' ' :: (p ++ [' ', '+', ' '] ++ joinSep " + ".data (q :: rest2)) = _
        simp [List.append_assoc, List.cons_append]
      have hplus : '+' ∉ (' ' :: p) ++ [' '] := by
        intro hmem
        rcases List.mem_append.mp hmem with h1 | h2
        · rcases List.mem_cons.mp h1 with he | hm
          · exact absurd he (by decide)
          · exact (hp.2 '+' hm).2.1 rfl
        · rcases List.mem_cons.mp h2 with he | hm
          · exact absurd he (by decide)
          · exact absurd hm (List.not_mem_nil _)
      rw [key, split_append_cons _ hplus, List.map_cons]
      rw [ih (fun x hx => hps x (List.mem_cons_of_mem p hx)) (List.cons_ne_nil q rest2)]
      rw [strip_append_space (by decide), strip_cons_space (by decide),
        strip_eq_self_of_forall (fun x hx => (hp.2 x hx).2.2.2.2)]

theorem map_strip_split_join (ps : List Str) (hps : ∀ p ∈ ps, cleanToken p)
    (hne : ps ≠ []) :
    (split '+' (joinSep " + ".data ps)).map strip = ps := by
  cases ps with
  | nil => exact absurd rfl hne
  | cons p rest =>
    have hp := hps p (List.mem_cons_self p rest)
    cases rest with
    | nil =>
      have hnp : '+' ∉ p := fun hm => (hp.2 '+' hm).2.1 rfl
      have hj : joinSep " + ".data [p] = p := rfl
      rw [hj, split_not_mem hnp]
      simp only [List.map_cons, List.map_nil]
      rw [strip_eq_self_of_forall (fun x hx => (hp.2 x hx).2.2.2.2)]
    | cons q rest2 =>
      have key : joinSep " + ".data (p :: q :: rest2) =
          (p ++ [' ']) ++ '+' :: (' ' :: joinSep " + ".data (q :: rest2)) := by
        show p ++ [' ', '+', ' '] ++ joinSep " + ".data (q :: rest2) = _
        simp [List.append_assoc, List.cons_append]
      have hplus : '+' ∉ p ++ [' '] := by
        intro hmem
        rcases List.mem_append.mp hmem with h1 | h2
        · exact (hp.2 '+' h1).2.1 rfl
        · rcases List.mem_cons.mp h2 with he | hm
          · exact absurd he (by decide)
          · exact absurd hm (List.not_mem_nil _)
      rw [key, split_append_cons _ hplus, List.map_cons]
      rw [map_strip_split_aux (q :: rest2)
        (fun x hx => hps x (List.mem_cons_of_mem p hx)) (List.cons_ne_nil q rest2)]
      rw [strip_append_space (by decide),
        strip_eq_self_of_forall (fun x hx => (hp.2 x hx).2.2.2.2)]

/-- Claim C5 counterexample: with an empty predictor sequence, the
composed formula `y ~ ` parses back with predictors equal to the
one-element list holding the empty token, not the empty sequence, so
the round trip fails on the empty sequence the claim includes. -/
theorem C5_counterexample :
    parse_formula (create_formula "y".data [] none) =
      .ok ⟨"y".data, [([] : Str)], none, []⟩ ∧
    ([([] : Str)] : List Str) ≠ ([] : List Str) :=
  ⟨by decide, by decide⟩

/-- Claim C5 (amended): for every specification with no interactions
whose outcome and predictors are nonempty tokens free of the
delimiter and whitespace characters, and with at least one predictor,
parsing the composed formula returns the same specification with
predictor order preserved, interactions absent and no warning. -/
theorem C5_roundtrip_nonempty (o : Str) (ps : List Str) (ho : cleanToken o)
    (hps : ∀ p ∈ ps, cleanToken p) (hne : ps ≠ []) :
    parse_formula (create_formula o ps none) = .ok ⟨o, ps, none, []⟩ := by
  have hform : create_formula o ps none =
      o ++ " ~ ".data ++ joinSep " + ".data ps := rfl
  have hnt1 : '~' ∉ o ++ [' '] := by
    intro hmem
    rcases List.mem_append.mp hmem with h1 | h2
    · exact (ho.2 '~' h1).1 rfl
    · rcases List.mem_cons.mp h2 with he | hm
      · exact absurd he (by decide)
      · exact absurd hm (List.not_mem_nil _)
  have hnt2 : '~' ∉ (' ' :: joinSep " + ".data ps) := by
    intro hmem
    rcases List.mem_cons.mp hmem with he | hm
    · exact absurd he (by decide)
    · exact (joinSep_no_special hps hm).1 rfl
  have harr : o ++ " ~ ".data ++ joinSep " + ".data ps =
      (o ++ [' ']) ++ '~' :: (' ' :: joinSep " + ".data ps) := by
    show o ++ [' ', '~', ' '] ++ joinSep " + ".data ps = _
    simp [List.append_assoc, List.cons_append]
  have hsplit : split '~' (create_formula o ps none) =
      [o ++ [' '], ' ' :: joinSep " + ".data ps] := by
    rw [hform, harr, split_append_cons _ hnt1, split_not_mem hnt2]
  rw [parse_formula_eq_two hsplit]
  have hnos : (create_formula o ps none).contains '*' = false := by
    apply contains_eq_false.mpr
    intro hmem
    rw [hform] at hmem
    exact (formula_no_special ho hps hmem).2 rfl
  have hnoc : (create_formula o ps none).contains ':' = false := by
    apply contains_eq_false.mpr
    intro hmem
    rw [hform] at hmem
    exact (formula_no_special ho hps hmem).1 rfl
  rw [if_neg (by rw [hnos, hnoc]; decide)]
  have h1 : strip (o ++ [' ']) = o :=
    (strip_append_space (by decide)).trans
      (strip_eq_self_of_forall (fun x hx => (ho.2 x hx).2.2.2.2))
  have h2 : strip (' ' :: joinSep " + ".data ps) = joinSep " + ".data ps :=
    (strip_cons_space (by decide)).trans (strip_joinSep_eq hps hne)
  have h3 : plainPreds (split '+' (joinSep " + ".data ps)) = ps := by
    unfold plainPreds
    have hfil : (split '+' (joinSep " + ".data ps)).filter
        (fun p => !(p.contains ':') && !(p.contains '*')) =
        split '+' (joinSep " + ".data ps) := by
      apply List.filter_eq_self.mpr
      intro t ht
      have hcp : t.contains ':' = false := by
        apply contains_eq_false.mpr
        intro hmem
        exact (joinSep_no_special hps (mem_of_mem_split ht hmem)).2.1 rfl
      have hsp : t.contains '*' = false := by
        apply contains_eq_false.mpr
        intro hmem
        exact (joinSep_no_special hps (mem_of_mem_split ht hmem)).2.2 rfl
      rw [hcp, hsp]
      rfl
    rw [hfil]
    exact map_strip_split_join ps hps hne
  rw [h1, h2, h3]

/-- Claim C5 amended witness: round trip on the specification with
outcome `y` and predictors `[a, b]`. -/
theorem C5_roundtrip_nonempty_witness :
    parse_formula (create_formula "y".data ["a".data, "b".data] none) =
      .ok ⟨"y".data, ["a".data, "b".data], none, []⟩ :=
  C5_roundtrip_nonempty "y".data ["a".data, "b".data] (by decide)
    (by decide) (by decide)

theorem setEqStr_false_left {a b : List Str} {w : Str} (hw : w ∈ a)
    (hnb : w ∉ b) : setEqStr a b = false := by
  cases hb2 : setEqStr a b with
  | false => rfl
  | true =>
    unfold setEqStr at hb2
    rw [Bool.and_eq_true] at hb2
    have h1 := hb2.1
    have h2 := List.all_eq_true.mp h1 w hw
    exact absurd (contains_iff_mem.mp h2) hnb

theorem mem_combinations2 {α : Type} {x : List α} {t : List α}
    (ht : t ∈ combinations2 x) : ∃ a b, t = [a, b] ∧ a ∈ x ∧ b ∈ x := by
  induction x with
  | nil => exact absurd ht (List.not_mem_nil t)
  | cons c cs ih =>
    rcases List.mem_append.mp ht with h1 | h2
    · rcases List.mem_map.mp h1 with ⟨y, hy, hty⟩
      exact ⟨c, y, hty.symm, List.mem_cons_self c cs, List.mem_cons_of_mem c hy⟩
    · obtain ⟨a, b, hab, ha, hb⟩ := ih h2
      exact ⟨a, b, hab, List.mem_cons_of_mem c ha, List.mem_cons_of_mem c hb⟩

theorem length_combinations2 {α : Type} (x : List α) :
    (combinations2 x).length = Nat.choose x.length 2 := by
  induction x with
  | nil => rfl
  | cons c cs ih =>
    simp only [combinations2, List.length_append, List.length_map, ih,
      List.length_cons]
    rw [Nat.choose_succ_succ, Nat.choose_one_right]

theorem pair_mem_combinations2 {α : Type} {x : List α} {a b : α}
    (ha : a ∈ x) (hb : b ∈ x) (hne : a ≠ b) :
    [a, b] ∈ combinations2 x ∨ [b, a] ∈ combinations2 x := by
  induction x with
  | nil => exact absurd ha (List.not_mem_nil a)
  | cons c cs ih =>
    rcases List.mem_cons.mp ha with hac | ha2
    · subst hac
      left
      apply List.mem_append.mpr
      left
      apply List.mem_map.mpr
      refine ⟨b, ?_, rfl⟩
      rcases List.mem_cons.mp hb with hbc | hb2
      · exact absurd hbc.symm hne
      · exact hb2
    · rcases List.mem_cons.mp hb with hbc | hb2
      · subst hbc
        right
        apply List.mem_append.mpr
        left
        exact List.mem_map.mpr ⟨a, ha2, rfl⟩
      · rcases ih ha2 hb2 with h | h
        · exact Or.inl (List.mem_append.mpr (Or.inr h))
        · exact Or.inr (List.mem_append.mpr (Or.inr h))

theorem combinations2_pairwise_ne {x : List Str} (hx : x.Nodup) :
    (combinations2 x).Pairwise (fun s t => setEqStr s t = false) := by
  induction x with
  | nil => simp [combinations2]
  | cons c cs ih =>
    rw [List.nodup_cons] at hx
    obtain ⟨hc, hcs⟩ := hx
    simp only [combinations2]
    rw [List.pairwise_append]
    refine ⟨?_, ih hcs, ?_⟩
    · rw [List.pairwise_map]
      apply List.Pairwise.imp_of_mem ?_ hcs
      intro y z hy hz hyz
      apply setEqStr_false_left (w := y)
        (List.mem_cons_of_mem c (List.mem_cons_self y []))
      intro hmem
      rcases List.mem_cons.mp hmem with h | h
      · exact hc (h ▸ hy)
      · rcases List.mem_cons.mp h with h2 | h2
        · exact hyz h2
        · exact absurd h2 (List.not_mem_nil y)
    · intro s hs t ht2
      rcases List.mem_map.mp hs with ⟨y, hy, hsy⟩
      obtain ⟨a, b, hab, ha, hb⟩ := mem_combinations2 ht2
      subst hsy hab
      apply setEqStr_false_left (w := c) (List.mem_cons_self c [y])
      intro hmem
      rcases List.mem_cons.mp hmem with h | h
      · exact hc (h.symm ▸ ha)
      · rcases List.mem_cons.mp h with h2 | h2
        · exact hc (h2.symm ▸ hb)
        · exact absurd h2 (List.not_mem_nil c)

/-- Claim C6: the asterisk shorthand expansion of a term with k
variables produces exactly the k-choose-2 unordered pairwise terms and
never a term of more than 2 variables (each produced term is a pair of
distinct positions drawn from the term, every unordered pair of
distinct variables occurs, and for distinct variables the produced
pairs are pairwise distinct as sets); and concretely
`parse_formula "y ~ a + b + c + a*b*c"` returns the three pairwise
interaction terms on `a`, `b`, `c` (as sets: the unordered pairs of
`a` and `b`, of `a` and `c`, and of `b` and `c`), predictors
`[a, b, c]`, and no warning. -/
theorem C6_star_expansion_pairwise :
    (∀ (x : List Str),
      (∀ t ∈ combinations2 x, t.length = 2 ∧ ∀ e ∈ t, e ∈ x) ∧
      (combinations2 x).length = Nat.choose x.length 2 ∧
      (∀ a b, a ∈ x → b ∈ x → a ≠ b →
        [a, b] ∈ combinations2 x ∨ [b, a] ∈ combinations2 x) ∧
      (x.Nodup →
        (combinations2 x).Pairwise (fun s t => setEqStr s t = false))) ∧
    parse_formula "y ~ a + b + c + a*b*c".data =
      .ok ⟨"y".data, ["a".data, "b".data, "c".data],
           some [["a".data, "b".data], ["a".data, "c".data],
                 ["b".data, "c".data]], []⟩ := by
  constructor
  · intro x
    refine ⟨?_, length_combinations2 x,
      fun a b ha hb hne => pair_mem_combinations2 ha hb hne,
      fun hnd => combinations2_pairwise_ne hnd⟩
    intro t ht
    obtain ⟨a, b, hab, ha, hb⟩ := mem_combinations2 ht
    subst hab
    refine ⟨rfl, ?_⟩
    intro e he
    rcases List.mem_cons.mp he with h | h
    · exact h.symm ▸ ha
    · rcases List.mem_cons.mp h with h2 | h2
      · exact h2.symm ▸ hb
      · exact absurd h2 (List.not_mem_nil e)
  · decide

/-- Claim C6 witness: the general part instantiated on the distinct
token list `[a, b, c]`, discharging the distinctness hypotheses. -/
theorem C6_star_expansion_pairwise_witness :
    (combinations2 [("a".data : Str), "b".data, "c".data]).Pairwise
      (fun s t => setEqStr s t = false) ∧
    (["a".data, "b".data] ∈
        combinations2 [("a".data : Str), "b".data, "c".data] ∨
      ["b".data, "a".data] ∈
        combinations2 [("a".data : Str), "b".data, "c".data]) :=
  ⟨(C6_star_expansion_pairwise.1 ["a".data, "b".data, "c".data]).2.2.2
      (by decide),
   (C6_star_expansion_pairwise.1 ["a".data, "b".data, "c".data]).2.2.1
      "a".data "b".data (by decide) (by decide) (by decide)⟩

end Glmax
